import Mathlib

/-!
Verification development for the `rag_system` retrieval pipeline
(`app/rag/chunker.py`, `app/rag/embedder.py`, `app/rag/retriever.py`,
`app/api/routes/files.py`).

Shallow embedding conventions:
* Python strings are Lean `String`s; splitting and joining are defined over
  `String.data` because the Python code splits on single characters
  (`text.split('\n')`, `'\n'.join(...)`).
* The tiktoken encoding is an external dependency; it is modelled by an
  abstract `Encoding` (a pair of functions `encode`/`decode`), exactly the
  interface the chunker uses.
* Similarity scores are `Rat` (Python floats; only order and the weighted-sum
  arithmetic matter to the code under study).
* Network calls (Ollama embeddings, Qdrant search/upsert) are oracles passed
  as function arguments; a failed call is `none`.
* The dataclass field `section` is renamed `sectionLabel` (`section` is a
  Lean keyword); all other source names are kept.
-/

namespace Rag

/-- Python's `\s` character class restricted to ASCII (the only characters the
texts under study contain): space, tab, newline, carriage return, vertical
tab, form feed. Used by the header regex, paragraph regex and `str.strip`. -/
def isPyWs (c : Char) : Bool :=
  c == ' ' || c == '\t' || c == '\n' || c == '\r' || c == '\x0b' || c == '\x0c'

/-- `text.split('\n')` on the character list: always returns at least one
(possibly empty) segment, like Python `str.split` with an explicit
separator. -/
def splitNlChars : List Char → List (List Char)
  | [] => [[]]
  | c :: cs =>
    match splitNlChars cs with
    | [] => [[]]
    | l :: ls => if c = '\n' then [] :: l :: ls else (c :: l) :: ls

/-- `text.split('\n')` (chunker.py line 40). -/
def splitNl (s : String) : List String :=
  (splitNlChars s.data).map String.mk

/-- `'\n'.join(parts)` (chunker.py lines 50, 63). -/
def joinNl : List String → String
  | [] => ""
  | [s] => s
  | s :: rest => s ++ "\n" ++ joinNl rest

/-- `re.match(r'^(#{1,6})\s+(.+)$', line)` (chunker.py line 44), returning
`group(2)` on success.  A line (no `'\n'` inside) matches iff it starts with
one to six `#` characters followed by at least one whitespace character and
at least one further character; `\s+` is greedy, so the title is the suffix
after the maximal whitespace run — except when the entire remainder is
whitespace, where backtracking leaves exactly the last character to `.+`. -/
def headerMatch (line : String) : Option String :=
  let cs := line.data
  let hashes := cs.takeWhile (· = '#')
  let rest := cs.dropWhile (· = '#')
  if 1 ≤ hashes.length ∧ hashes.length ≤ 6 then
    let ws := rest.takeWhile (fun c => isPyWs c)
    let tail := rest.drop ws.length
    if ws.length = 0 then none
    else if tail ≠ [] then some (String.mk tail)
    else if 2 ≤ ws.length then some (String.mk (ws.drop (ws.length - 1)))
    else none
  else none

/-- One element of `split_by_headers`' result: the Python dict
`{"section": ..., "content": ...}` (chunker.py lines 48-51). -/
structure SectionData where
  sectionLabel : Option String
  content : String
deriving DecidableEq

/-- The loop of `split_by_headers` (chunker.py lines 42-64): `cur` is
`current_section`, `acc` is `current_content`; a section is emitted when a
new header starts (only if `current_content` is non-empty) and once at the
end. -/
def splitHeadersGo : List String → Option String → List String → List SectionData
  | [], cur, acc => if acc ≠ [] then [⟨cur, joinNl acc⟩] else []
  | l :: ls, cur, acc =>
    match headerMatch l with
    | some h =>
      (if acc ≠ [] then [⟨cur, joinNl acc⟩] else []) ++ splitHeadersGo ls (some h) [l]
    | none => splitHeadersGo ls cur (acc ++ [l])

/-- `TextChunker.split_by_headers` (chunker.py lines 34-66). -/
def split_by_headers (text : String) : List SectionData :=
  splitHeadersGo (splitNl text) none []

/-- First match of `\n\s*\n` at the head of `cs` (greedy `\s*` with
backtracking): the head must be `'\n'`, and the match extends to the last
`'\n'` inside the maximal whitespace run that follows; returns the remainder
after the match. -/
def paraBreak : List Char → Option (List Char)
  | [] => none
  | c :: cs =>
    if c = '\n' then
      let run := cs.takeWhile (fun x => isPyWs x)
      let nlPos := (run.reverse.findIdx? (fun x => x = '\n')).map (fun j => run.length - 1 - j)
      match nlPos with
      | some j => some (cs.drop (j + 1))
      | none => none
    else none

theorem paraBreak_length_lt : ∀ (cs rest : List Char), paraBreak cs = some rest →
    rest.length < cs.length := by
  intro cs rest h
  match cs with
  | [] => simp [paraBreak] at h
  | c :: cs' =>
    simp only [paraBreak] at h
    split at h
    · split at h
      · rename_i j hj
        simp only [Option.some.injEq] at h
        subst h
        have := List.length_drop (j + 1) cs'
        simp only [List.length_cons]
        omega
      · simp at h
    · simp at h

/-- `re.split(r'\n\s*\n', text)` on the character list: scan left to right,
cutting at each leftmost match of the pattern. -/
def splitParaChars (cs : List Char) : List (List Char) :=
  match cs with
  | [] => [[]]
  | c :: cs' =>
    match h : paraBreak (c :: cs') with
    | some rest => [] :: splitParaChars rest
    | none =>
      match splitParaChars cs' with
      | [] => [[c]]
      | l :: ls => (c :: l) :: ls
termination_by cs.length
decreasing_by
  · exact paraBreak_length_lt _ _ h
  · simp

/-- Python `str.strip()` on a character list. -/
def pyStrip (cs : List Char) : List Char :=
  ((cs.dropWhile (fun c => isPyWs c)).reverse.dropWhile (fun c => isPyWs c)).reverse

/-- `TextChunker.split_by_paragraphs` (chunker.py lines 68-76): split on
`\n\s*\n`, strip each piece, drop empty pieces. -/
def split_by_paragraphs (text : String) : List String :=
  ((splitParaChars text.data).map pyStrip).filterMap
    (fun cs => if cs ≠ [] then some (String.mk cs) else none)

/-- The tiktoken encoding used by the chunker (an external dependency),
reduced to the interface the chunker actually calls:
`encoding.encode : str -> token list` and `encoding.decode`. -/
structure Encoding where
  encode : String → List Nat
  decode : List Nat → String

/-- `TextChunker.count_tokens` (chunker.py lines 30-32). -/
def count_tokens (enc : Encoding) (text : String) : Nat :=
  (enc.encode text).length

/-- The `Chunk` dataclass (chunker.py lines 8-14); `section` is renamed
`sectionLabel` because `section` is a Lean keyword. -/
structure Chunk where
  content : String
  chunk_index : Nat
  sectionLabel : Option String := none
  source : Option String := none
  token_count : Option Nat := none
deriving DecidableEq

instance : Inhabited Chunk := ⟨⟨"", 0, none, none, none⟩⟩

/-- `TextChunker.create_chunk` (chunker.py lines 85-100). -/
def create_chunk (enc : Encoding) (content : String) (chunk_index : Nat)
    (sectionLabel : Option String) (source : Option String) : Chunk :=
  { content := content
    chunk_index := chunk_index
    sectionLabel := sectionLabel
    source := source
    token_count := some (count_tokens enc content) }

/-- The `while start < len(tokens)` loop of `TextChunker.chunk_by_size`
(chunker.py lines 115-137).  `fuel` bounds the number of iterations, so that
the embedding is total even for parameter choices under which the Python loop
does not terminate (`none` = fuel exhausted, i.e. the loop ran longer than
the given bound).  `start` stays non-negative whenever `overlap ≤ chunk_size`,
which covers every run the claims are about, so `Nat` subtraction agrees with
the Python arithmetic there. -/
def chunkBySizeGo (enc : Encoding) (tokens : List Nat) (chunk_size overlap : Nat)
    (sectionLabel source : Option String) :
    Nat → Nat → Nat → Option (List Chunk)
  | 0, _, _ => none
  | fuel + 1, start, chunk_index =>
    if start < tokens.length then
      let e := min (start + chunk_size) tokens.length
      let chunk_content := enc.decode ((tokens.drop start).take (e - start))
      let chunk := create_chunk enc chunk_content chunk_index sectionLabel source
      if tokens.length ≤ e then
        some [chunk]
      else
        match chunkBySizeGo enc tokens chunk_size overlap sectionLabel source
            fuel (e - overlap) (chunk_index + 1) with
        | some rest => some (chunk :: rest)
        | none => none
    else
      some []

/-- `TextChunker.chunk_by_size` (chunker.py lines 102-139); the initial fuel
`tokens.length + 1` is enough for every terminating configuration
(`overlap < chunk_size`), as proved below. -/
def chunk_by_size (enc : Encoding) (text : String) (chunk_size overlap : Nat)
    (sectionLabel source : Option String) : Option (List Chunk) :=
  let tokens := enc.encode text
  chunkBySizeGo enc tokens chunk_size overlap sectionLabel source
    (tokens.length + 1) 0 0

/-- The paragraph-accumulation loop of `semantic_chunk` (chunker.py lines
172-204): `cur` is `current_chunk`; the final `if current_chunk:` flush is
the base case. -/
def paraAccum (enc : Encoding) (chunk_size : Nat)
    (sectionLabel source : Option String) :
    Nat → String → List String → List Chunk
  | chunk_index, cur, [] =>
    if cur ≠ "" then [create_chunk enc cur chunk_index sectionLabel source] else []
  | chunk_index, cur, para :: rest =>
    let combined := if cur ≠ "" then cur ++ "\n\n" ++ para else para
    if chunk_size < count_tokens enc combined then
      if cur ≠ "" then
        create_chunk enc cur chunk_index sectionLabel source ::
          paraAccum enc chunk_size sectionLabel source (chunk_index + 1) para rest
      else
        paraAccum enc chunk_size sectionLabel source chunk_index para rest
    else
      paraAccum enc chunk_size sectionLabel source chunk_index combined rest

/-- Processing of one section in `semantic_chunk` (chunker.py lines 155-204):
emit it whole if it fits in `chunk_size` tokens, otherwise greedily pack its
paragraphs. -/
def sectionChunks (enc : Encoding) (chunk_size : Nat) (source : Option String)
    (chunk_index : Nat) (sec : SectionData) : List Chunk :=
  if count_tokens enc sec.content ≤ chunk_size then
    [create_chunk enc sec.content chunk_index sec.sectionLabel source]
  else
    paraAccum enc chunk_size sec.sectionLabel source chunk_index ""
      (split_by_paragraphs sec.content)

/-- The `for section_data in sections` loop of `semantic_chunk`, threading the
mutable `chunk_index` through the sections. -/
def sectionsLoop (enc : Encoding) (chunk_size : Nat) (source : Option String)
    (chunk_index : Nat) : List SectionData → List Chunk
  | [] => []
  | sec :: rest =>
    let cs := sectionChunks enc chunk_size source chunk_index sec
    cs ++ sectionsLoop enc chunk_size source (chunk_index + cs.length) rest

/-- `TextChunker._apply_overlap` (chunker.py lines 221-225): the identity. -/
def apply_overlap (chunks : List Chunk) : List Chunk :=
  chunks

/-- `TextChunker.semantic_chunk` (chunker.py lines 141-219).  The result is
`Option` only because the no-headers branch delegates to the fuel-bounded
`chunk_by_size`; the header branch always returns `some`. -/
def semantic_chunk (enc : Encoding) (chunk_size chunk_overlap : Nat)
    (text : String) (source : Option String) : Option (List Chunk) :=
  let sections := split_by_headers text
  if 1 < sections.length then
    let chunks := sectionsLoop enc chunk_size source 0 sections
    some (if 1 < chunks.length ∧ 0 < chunk_overlap then apply_overlap chunks else chunks)
  else
    chunk_by_size enc text chunk_size chunk_overlap none source

/-- `current_chunk.token_count < min_size` (chunker.py line 240) on the
`Optional[int]` field.  Chunks built by `create_chunk` always carry
`some` count; on `None`, Python would raise a `TypeError`, a state no chunker
output ever reaches, modelled here as `false`. -/
def tokenCountLt (c : Chunk) (min_size : Nat) : Bool :=
  match c.token_count with
  | some n => n < min_size
  | none => false

/-- The loop of `merge_small_chunks` (chunker.py lines 235-248), modelled
with an explicit heap because the Python code mutates chunk objects in
place (`current_chunk.content = combined_content`): `heap` holds the chunk
objects, `cur`/`out` are object references (positions in the original list),
and a merge overwrites the referenced object. -/
def mergeGo (enc : Encoding) (min_size chunk_size : Nat) :
    List Chunk → Nat → List Nat → List Nat → List Chunk × List Nat
  | heap, cur, [], out => (heap, out ++ [cur])
  | heap, cur, nxt :: rest, out =>
    let c := heap.getD cur default
    let n := heap.getD nxt default
    let combined_content := c.content ++ "\n\n" ++ n.content
    let combined_tokens := count_tokens enc combined_content
    if tokenCountLt c min_size ∧ combined_tokens ≤ chunk_size then
      mergeGo enc min_size chunk_size
        (heap.set cur { c with content := combined_content,
                               token_count := some combined_tokens })
        cur rest out
    else
      mergeGo enc min_size chunk_size heap nxt rest (out ++ [cur])

/-- `TextChunker.merge_small_chunks` (chunker.py lines 227-253).  Returns the
final state of the input chunk objects (first component — position `i` is the
object that was `chunks[i]` on entry) together with the returned list
(second component). -/
def merge_small_chunks (enc : Encoding) (min_size chunk_size : Nat)
    (chunks : List Chunk) : List Chunk × List Chunk :=
  if chunks.length ≤ 1 then (chunks, chunks)
  else
    let r := mergeGo enc min_size chunk_size chunks 0
      ((List.range chunks.length).drop 1) []
    (r.1, r.2.map (fun i => r.1.getD i default))

/-- One search-result dict (retriever.py).  Python dicts may lack keys, so
every score field is an `Option`; `payload` stands for the remaining metadata
keys. -/
structure SearchResult where
  id : String
  score : Option Rat := none
  combined_score : Option Rat := none
  vector_score : Option Rat := none
  keyword_score : Option Rat := none
  payload : List (String × String) := []
deriving DecidableEq

instance : Inhabited SearchResult := ⟨⟨"", none, none, none, none, []⟩⟩

/-- `{result["id"]: result for result in results}` followed by `dict.get`
(retriever.py lines 112-113, 122, 126): on duplicate ids the last entry
wins, hence the lookup scans the reversed list. -/
def dictLookup (results : List SearchResult) (i : String) : Option SearchResult :=
  results.reverse.find? (fun r => r.id == i)

/-- `set(vector_dict.keys()) | set(keyword_dict.keys())` (retriever.py line
116) as a duplicate-free list.  Python set iteration order is unspecified;
first-occurrence order is one admissible order, and no claim depends on it. -/
def allIds (vector_results keyword_results : List SearchResult) : List String :=
  ((vector_results.map (·.id)) ++ (keyword_results.map (·.id))).dedup

/-- `result.get("score", 0)` on a possibly-absent dict entry
(retriever.py lines 123, 127). -/
def lookupScore (results : List SearchResult) (i : String) : Rat :=
  ((dictLookup results i).map (fun r => r.score.getD 0)).getD 0

/-- The body of the `for result_id in all_ids` loop of `_fuse_results`
(retriever.py lines 120-145): `if vector_result:` is dict truthiness — the
vector entry is the base when present (a dict with at least an `"id"` key is
truthy), else the keyword entry. -/
def fuseOne (vector_results keyword_results : List SearchResult)
    (vector_weight keyword_weight : Rat) (result_id : String) : SearchResult :=
  let vector_result := dictLookup vector_results result_id
  let keyword_result := dictLookup keyword_results result_id
  let vector_score := (vector_result.map (fun r => r.score.getD 0)).getD 0
  let keyword_score := (keyword_result.map (fun r => r.score.getD 0)).getD 0
  let combined_score := vector_weight * vector_score + keyword_weight * keyword_score
  let base := vector_result.getD (keyword_result.getD default)
  { base with combined_score := some combined_score
              vector_score := some vector_score
              keyword_score := some keyword_score }

/-- `Retriever._fuse_results` (retriever.py lines 103-147). -/
def fuse_results (vector_results keyword_results : List SearchResult)
    (vector_weight keyword_weight : Rat) : List SearchResult :=
  (allIds vector_results keyword_results).map
    (fuseOne vector_results keyword_results vector_weight keyword_weight)

/-- Python `list.sort(key=key, reverse=True)`: a stable sort in descending
key order (`mergeSort` keeps `a` before `b` when `le a b`, so `key b ≤ key a`
reproduces Python's stable descending sort). -/
def sortDescBy (key : SearchResult → Rat) (results : List SearchResult) :
    List SearchResult :=
  results.mergeSort (fun a b => key b ≤ key a)

/-- `Retriever.rerank_results` (retriever.py lines 149-166): identity when
the input fits in `top_k`, otherwise sort by `score` descending and truncate. -/
def rerank_results (results : List SearchResult) (top_k : Nat) :
    List SearchResult :=
  if results.length ≤ top_k then results
  else (sortDescBy (fun r => r.score.getD 0) results).take top_k

/-- `Retriever.filter_by_threshold` (retriever.py lines 168-177). -/
def filter_by_threshold (results : List SearchResult) (threshold : Rat) :
    List SearchResult :=
  results.filter (fun r => threshold ≤ r.score.getD 0)

/-- `Retriever.vector_search` (retriever.py lines 15-45).  `embed` is the
outcome of `embedder.get_embedding(query, ...)`; `search` is the external
`qdrant_db.search_vectors` call (query vector, limit, score threshold).
`if not query_embedding:` is falsy for both `None` and the empty list. -/
def vector_search (embed : Option (List Rat))
    (search : List Rat → Nat → Option Rat → List SearchResult)
    (limit : Nat) (score_threshold : Option Rat) : List SearchResult :=
  match embed with
  | none => []
  | some v => if v = [] then [] else search v limit score_threshold

/-- `Retriever.keyword_search` (retriever.py lines 47-57): placeholder that
always returns the empty list. -/
def keyword_search : List SearchResult :=
  []

/-- `Retriever.hybrid_search` (retriever.py lines 59-101): vector search,
placeholder keyword search, weighted fusion, stable descending sort on
`combined_score`, truncation to `limit`. -/
def hybrid_search (embed : Option (List Rat))
    (search : List Rat → Nat → Option Rat → List SearchResult)
    (limit : Nat) (vector_weight keyword_weight : Rat)
    (score_threshold : Option Rat) : List SearchResult :=
  let vector_results := vector_search embed search limit score_threshold
  let keyword_results := keyword_search
  let combined_results :=
    fuse_results vector_results keyword_results vector_weight keyword_weight
  (sortDescBy (fun r => r.combined_score.getD 0) combined_results).take limit

/-- `Retriever.retrieve_context` (retriever.py lines 179-230): over-fetch
`2×limit` candidates (hybrid fusion with the default weights 0.7/0.3, or
plain vector search), rerank to `limit` when requested and non-empty
(else truncate), then apply the final threshold filter when a threshold is
set. -/
def retrieve_context (embed : Option (List Rat))
    (search : List Rat → Nat → Option Rat → List SearchResult)
    (limit : Nat) (use_hybrid rerank : Bool) (score_threshold : Option Rat) :
    List SearchResult :=
  let results :=
    if use_hybrid then
      hybrid_search embed search (limit * 2) (7 / 10) (3 / 10) score_threshold
    else
      vector_search embed search (limit * 2) score_threshold
  let results :=
    if rerank && 0 < results.length then rerank_results results limit
    else results.take limit
  match score_threshold with
  | some t => filter_by_threshold results t
  | none => results

/-- The batch grouping `texts[i:i + batch_size]` of
`Embedder.get_embeddings_batch` (embedder.py line 103-104).  For
`1 ≤ batch_size` this is `range(0, len(texts), batch_size)` slicing;
(`batch_size = 0` raises `ValueError` in Python and is outside every claim). -/
def batchGroups (batch_size : Nat) : List String → List (List String)
  | [] => []
  | t :: ts =>
    (t :: ts.take (batch_size - 1)) :: batchGroups batch_size (ts.drop (batch_size - 1))
termination_by ts => ts.length
decreasing_by simp only [List.length_cons, List.length_drop]; omega

/-- `Embedder.get_embeddings_batch` (embedder.py lines 92-114): the sequential
batch loop around `asyncio.gather`, which returns the per-text results of
`get_embedding` in argument order; `f` is the outcome of
`get_embedding(text, ...)` (`none` = failure for that text). -/
def get_embeddings_batch (f : String → Option (List Rat)) (texts : List String)
    (batch_size : Nat) : List (Option (List Rat)) :=
  (batchGroups batch_size texts).flatMap (fun batch => batch.map f)

/-- Outcome of one `upload_file` request past the chunking step
(files.py lines 62-123): the HTTP result, the list of `upsert_vectors` calls
issued to Qdrant (each recorded by its vector batch), and whether the file
record was rolled back (`mark_file_deleted`). -/
inductive UploadStatus where
  /-- A raised `HTTPException` with this status code. -/
  | httpError (code : Nat)
  /-- The success body's `chunks_created` count. -/
  | ok (chunks_created : Nat)
deriving DecidableEq

structure UploadOutcome where
  response : UploadStatus
  upserts : List (List (List Rat))
  fileDeleted : Bool
deriving DecidableEq

/-- The indexing tail of `upload_file` (files.py lines 62-123): embed every
chunk's content (batch size 10, the `get_embeddings_batch` default), keep
chunks with truthy embeddings (`if embedding:` — non-`None` and non-empty),
fail with 500 and no upsert when none survive, otherwise upsert once and
fail with 500 when the store declines.  A raised `HTTPException` is caught
by the enclosing `except`, which marks the file record deleted and re-raises
status 500. -/
def uploadIndex (chunks : List Chunk) (f : String → Option (List Rat))
    (upsertOk : Bool) : UploadOutcome :=
  let chunk_contents := chunks.map (·.content)
  let embeddings := get_embeddings_batch f chunk_contents 10
  let valid := (chunks.zip embeddings).filterMap
    (fun p => match p.2 with
      | some v => if v = [] then none else some (p.1, v)
      | none => none)
  if valid.isEmpty then
    { response := .httpError 500, upserts := [], fileDeleted := true }
  else
    let valid_embeddings := valid.map (·.2)
    if upsertOk then
      { response := .ok valid.length, upserts := [valid_embeddings], fileDeleted := false }
    else
      { response := .httpError 500, upserts := [valid_embeddings], fileDeleted := true }

/-- A concrete instance of the abstract tiktoken interface used to evaluate
the development on closed inputs: one token per character. -/
def charEnc : Encoding :=
  ⟨fun s => s.data.map Char.toNat, fun l => String.mk (l.map Char.ofNat)⟩

/-- A concrete encoding with a fixed fan-out of 1000 tokens per character,
used to build short documents with large token counts. -/
def kiloEnc : Encoding :=
  ⟨fun s => List.range (1000 * s.length), fun _ => "x"⟩

/-! ## Theorems -/

theorem flatMap_batchGroups (f : String → Option (List Rat)) (bs : Nat)
    (hbs : 1 ≤ bs) :
    ∀ texts : List String,
      (batchGroups bs texts).flatMap (fun b => b.map f) = texts.map f := by
  have main : ∀ (n : Nat) (texts : List String), texts.length ≤ n →
      (batchGroups bs texts).flatMap (fun b => b.map f) = texts.map f := by
    intro n
    induction n with
    | zero =>
      intro texts ht
      match texts with
      | [] => simp [batchGroups]
    | succ n ih =>
      intro texts ht
      match texts with
      | [] => simp [batchGroups]
      | t :: ts =>
        rw [batchGroups]
        simp only [List.flatMap_cons, List.map_cons]
        rw [ih (ts.drop (bs - 1))
          (by simp only [List.length_drop]; simp only [List.length_cons] at ht; omega)]
        rw [List.cons_append, ← List.map_append, List.take_append_drop]
  intro texts
  exact main texts.length texts le_rfl

/-- C7: `get_embeddings_batch` returns exactly one result (vector or failure
marker) per input text, with output position `i` corresponding to input text
`i`; a failure for one text (`f` returning `none` there) leaves every other
position's result untouched, since the whole output is the pointwise image
of `f`. -/
theorem get_embeddings_batch_ordered (f : String → Option (List Rat))
    (texts : List String) (batch_size : Nat) (hbs : 1 ≤ batch_size) :
    get_embeddings_batch f texts batch_size = texts.map f ∧
    (get_embeddings_batch f texts batch_size).length = texts.length ∧
    ∀ i : Nat, (get_embeddings_batch f texts batch_size)[i]? = texts[i]?.map f := by
  have h := flatMap_batchGroups f batch_size hbs texts
  refine ⟨h, ?_, ?_⟩
  · rw [get_embeddings_batch, h, List.length_map]
  · intro i
    rw [get_embeddings_batch, h, List.getElem?_map]

theorem get_embeddings_batch_ordered_witness :
    1 ≤ 2 ∧
    get_embeddings_batch (fun t => if t = "bad" then none else some [1])
      ["a", "bad", "c"] 2 = [some [1], none, some [1]] := by
  refine ⟨by decide, ?_⟩
  have h := (get_embeddings_batch_ordered
    (fun t => if t = "bad" then none else some [1]) ["a", "bad", "c"] 2
    (by decide)).1
  rw [h]
  simp

/-- C3: the reranker returns `min (length results) top_k` results, and when
the input already fits in `top_k` it is returned unchanged, in the same
order. -/
theorem rerank_results_spec (results : List SearchResult) (top_k : Nat) :
    (rerank_results results top_k).length = min results.length top_k ∧
    (results.length ≤ top_k → rerank_results results top_k = results) := by
  constructor
  · rw [rerank_results]
    by_cases h : results.length ≤ top_k
    · rw [if_pos h]
      omega
    · rw [if_neg h, List.length_take, sortDescBy, List.length_mergeSort]
      omega
  · intro h
    rw [rerank_results, if_pos h]

theorem rerank_results_spec_witness :
    (rerank_results ([⟨"a", some 1, none, none, none, []⟩,
        ⟨"b", none, none, none, none, []⟩] : List SearchResult) 3).length =
      min (List.length ([⟨"a", some 1, none, none, none, []⟩,
        ⟨"b", none, none, none, none, []⟩] : List SearchResult)) 3 ∧
    rerank_results ([⟨"a", some 1, none, none, none, []⟩,
        ⟨"b", none, none, none, none, []⟩] : List SearchResult) 3 =
      ([⟨"a", some 1, none, none, none, []⟩,
        ⟨"b", none, none, none, none, []⟩] : List SearchResult) := by
  have h := rerank_results_spec
    ([⟨"a", some 1, none, none, none, []⟩,
      ⟨"b", none, none, none, none, []⟩] : List SearchResult) 3
  exact ⟨h.1, h.2 (by decide)⟩

theorem zip_self_map {α β : Type} (l : List α) (g : α → β) :
    l.zip (l.map g) = l.map (fun a => (a, g a)) := by
  induction l with
  | nil => rfl
  | cons a as ih => simp only [List.map_cons, List.zip_cons_cons, ih]

/-- C8: when the embedding provider fails for every chunk of the uploaded
document, `upload_file` reports a failure (HTTP 500, file record rolled
back) with zero chunks created, and `upsert_vectors` is never invoked. -/
theorem upload_all_embeddings_fail (chunks : List Chunk)
    (f : String → Option (List Rat)) (upsertOk : Bool)
    (h : ∀ c ∈ chunks, f c.content = none) :
    (uploadIndex chunks f upsertOk).response = .httpError 500 ∧
    (uploadIndex chunks f upsertOk).upserts = [] ∧
    (uploadIndex chunks f upsertOk).fileDeleted = true := by
  have hemb : get_embeddings_batch f (chunks.map (·.content)) 10 =
      chunks.map (fun c => f c.content) := by
    rw [(get_embeddings_batch_ordered f (chunks.map (·.content)) 10 (by decide)).1,
      List.map_map]
    rfl
  have hzip : chunks.zip (chunks.map (fun c => f c.content)) =
      chunks.map (fun c => (c, f c.content)) := zip_self_map chunks _
  have hvalid : (chunks.zip (get_embeddings_batch f (chunks.map (·.content)) 10)).filterMap
      (fun p => match p.2 with
        | some v => if v = [] then none else some (p.1, v)
        | none => none) = ([] : List (Chunk × List Rat)) := by
    rw [hemb, hzip, List.filterMap_map]
    rw [List.filterMap_eq_nil_iff]
    intro c hc
    simp [h c hc]
  rw [uploadIndex]
  simp only [hvalid]
  simp

theorem upload_all_embeddings_fail_witness :
    (∀ c ∈ [create_chunk charEnc "a" 0 none none],
        (fun _ => (none : Option (List Rat))) c.content = none) ∧
    (uploadIndex [create_chunk charEnc "a" 0 none none] (fun _ => none)
        true).response = .httpError 500 ∧
    (uploadIndex [create_chunk charEnc "a" 0 none none] (fun _ => none)
        true).upserts = [] := by
  have h := upload_all_embeddings_fail [create_chunk charEnc "a" 0 none none]
    (fun _ => none) true (by intro c _; rfl)
  exact ⟨by intro c _; rfl, h.1, h.2.1⟩

theorem find?_id_of_nodup (rs : List SearchResult) (r0 : SearchResult)
    (hnd : (rs.map (·.id)).Nodup) (hr : r0 ∈ rs) :
    rs.find? (fun r => r.id == r0.id) = some r0 := by
  induction rs with
  | nil => cases hr
  | cons a as ih =>
    rcases List.mem_cons.mp hr with h | h
    · subst h
      rw [List.find?_cons_of_pos _ (by simp)]
    · have hnd' := hnd
      rw [List.map_cons, List.nodup_cons] at hnd'
      have hne : a.id ≠ r0.id := by
        intro he
        exact hnd'.1 (he ▸ List.mem_map_of_mem (·.id) h)
      rw [List.find?_cons_of_neg _ (by simp [hne]), ih hnd'.2 h]

theorem dictLookup_of_nodup (rs : List SearchResult) (r0 : SearchResult)
    (hnd : (rs.map (·.id)).Nodup) (hr : r0 ∈ rs) :
    dictLookup rs r0.id = some r0 := by
  rw [dictLookup]
  apply find?_id_of_nodup
  · rw [List.map_reverse]
    exact List.nodup_reverse.mpr hnd
  · exact List.mem_reverse.mpr hr

theorem dictLookup_mem (rs : List SearchResult) (i : String) (r : SearchResult)
    (h : dictLookup rs i = some r) : r ∈ rs ∧ r.id = i := by
  rw [dictLookup] at h
  refine ⟨List.mem_reverse.mp (List.mem_of_find?_eq_some h), ?_⟩
  have := List.find?_some h
  simpa using this

theorem dictLookup_isSome (rs : List SearchResult) (i : String)
    (h : i ∈ rs.map (·.id)) : (dictLookup rs i).isSome = true := by
  rw [dictLookup, List.find?_isSome]
  rcases List.mem_map.mp h with ⟨r, hr, hid⟩
  exact ⟨r, List.mem_reverse.mpr hr, by simp [hid]⟩

theorem mem_allIds (v k : List SearchResult) (i : String) :
    i ∈ allIds v k ↔ (i ∈ v.map (·.id) ∨ i ∈ k.map (·.id)) := by
  rw [allIds, List.mem_dedup, List.mem_append]

theorem fuseOne_id (v k : List SearchResult) (vw kw : Rat) (i : String)
    (h : i ∈ allIds v k) : (fuseOne v k vw kw i).id = i := by
  rw [fuseOne]
  rcases (mem_allIds v k i).mp h with hm | hm
  · rcases Option.isSome_iff_exists.mp (dictLookup_isSome v i hm) with ⟨r, hr⟩
    simp only [hr, Option.getD_some]
    exact (dictLookup_mem v i r hr).2
  · rcases hv : dictLookup v i with _ | r
    · rcases Option.isSome_iff_exists.mp (dictLookup_isSome k i hm) with ⟨r, hr⟩
      simp only [hr, Option.getD_some, Option.getD_none]
      exact (dictLookup_mem k i r hr).2
    · simp only [Option.getD_some]
      exact (dictLookup_mem v i r hv).2

theorem map_id_fuse_results (v k : List SearchResult) (vw kw : Rat) :
    (fuse_results v k vw kw).map (·.id) = allIds v k := by
  rw [fuse_results, List.map_map]
  have h : ∀ i ∈ allIds v k, ((fun x => x.id) ∘ fuseOne v k vw kw) i = id i :=
    fun i hi => fuseOne_id v k vw kw i hi
  rw [List.map_congr_left h, List.map_id]

/-- C2: under distinct ids within each input list, fusion emits exactly one
entry per id of the union of the two id sets (the fused id list is
duplicate-free and covers exactly the union), every fused entry carries
`combined_score = vector_weight·vector_score + keyword_weight·keyword_score`
with `vector_score`/`keyword_score` present (never `none`) and equal to the
side's score for that id, a side missing the id contributing 0; and for an id
present in a side, that side's contribution is exactly that result's score. -/
theorem fuse_results_spec (v k : List SearchResult) (vw kw : Rat)
    (hv : (v.map (·.id)).Nodup) (hk : (k.map (·.id)).Nodup) :
    ((fuse_results v k vw kw).map (·.id)).Nodup ∧
    (∀ i, i ∈ (fuse_results v k vw kw).map (·.id) ↔
      (i ∈ v.map (·.id) ∨ i ∈ k.map (·.id))) ∧
    (∀ r ∈ fuse_results v k vw kw,
      r.combined_score = some (vw * lookupScore v r.id + kw * lookupScore k r.id) ∧
      r.vector_score = some (lookupScore v r.id) ∧
      r.keyword_score = some (lookupScore k r.id)) ∧
    (∀ r0 ∈ v, lookupScore v r0.id = r0.score.getD 0) ∧
    (∀ r0 ∈ k, lookupScore k r0.id = r0.score.getD 0) := by
  refine ⟨?_, ?_, ?_, ?_, ?_⟩
  · rw [map_id_fuse_results, allIds]
    exact List.nodup_dedup _
  · intro i
    rw [map_id_fuse_results]
    exact mem_allIds v k i
  · intro r hr
    rw [fuse_results, List.mem_map] at hr
    rcases hr with ⟨i, hi, hr⟩
    have hid : r.id = i := hr ▸ fuseOne_id v k vw kw i hi
    subst hr
    rw [hid]
    refine ⟨rfl, rfl, rfl⟩
  · intro r0 h0
    rw [lookupScore, dictLookup_of_nodup v r0 hv h0]
    rfl
  · intro r0 h0
    rw [lookupScore, dictLookup_of_nodup k r0 hk h0]
    rfl

theorem fuse_results_spec_witness :
    ((([⟨"a", some 1, none, none, none, []⟩,
        ⟨"b", none, none, none, none, []⟩] : List SearchResult).map (·.id)).Nodup ∧
      (([⟨"b", some 2, none, none, none, []⟩,
        ⟨"c", some 3, none, none, none, []⟩] : List SearchResult).map (·.id)).Nodup) ∧
    ((fuse_results
        ([⟨"a", some 1, none, none, none, []⟩,
          ⟨"b", none, none, none, none, []⟩] : List SearchResult)
        ([⟨"b", some 2, none, none, none, []⟩,
          ⟨"c", some 3, none, none, none, []⟩] : List SearchResult)
        2 3).map (·.id)).Nodup ∧
    (fuse_results
        ([⟨"a", some 1, none, none, none, []⟩,
          ⟨"b", none, none, none, none, []⟩] : List SearchResult)
        ([⟨"b", some 2, none, none, none, []⟩,
          ⟨"c", some 3, none, none, none, []⟩] : List SearchResult)
        2 3).map (·.id) = ["a", "b", "c"] := by
  refine ⟨⟨by decide, by decide⟩, ?_, by decide⟩
  exact (fuse_results_spec
    ([⟨"a", some 1, none, none, none, []⟩,
      ⟨"b", none, none, none, none, []⟩] : List SearchResult)
    ([⟨"b", some 2, none, none, none, []⟩,
      ⟨"c", some 3, none, none, none, []⟩] : List SearchResult)
    2 3 (by decide) (by decide)).1

theorem vector_search_none (search : List Rat → Nat → Option Rat → List SearchResult)
    (l : Nat) (thr : Option Rat) : vector_search none search l thr = [] :=
  rfl

theorem vector_search_all_empty (emb : Option (List Rat))
    (search : List Rat → Nat → Option Rat → List SearchResult) (l : Nat)
    (thr : Option Rat) (h : ∀ v, search v l thr = []) :
    vector_search emb search l thr = [] := by
  cases emb with
  | none => rfl
  | some v =>
    rw [vector_search]
    by_cases hv : v = [] <;> simp [hv, h]

theorem hybrid_search_vector_empty (emb : Option (List Rat))
    (search : List Rat → Nat → Option Rat → List SearchResult) (l : Nat)
    (vw kw : Rat) (thr : Option Rat) (h : vector_search emb search l thr = []) :
    hybrid_search emb search l vw kw thr = [] := by
  simp [hybrid_search, h, keyword_search, fuse_results, allIds, sortDescBy]

theorem mem_vector_search (emb : Option (List Rat))
    (search : List Rat → Nat → Option Rat → List SearchResult) (l : Nat)
    (thr : Option Rat) (r : SearchResult) (h : r ∈ vector_search emb search l thr) :
    ∃ v, r ∈ search v l thr := by
  cases emb with
  | none => cases h
  | some v =>
    rw [vector_search] at h
    by_cases hv : v = []
    · rw [if_pos hv] at h; cases h
    · rw [if_neg hv] at h; exact ⟨v, h⟩

theorem fuse_results_score_mem (vr kr : List SearchResult) (vw kw : Rat)
    (r : SearchResult) (h : r ∈ fuse_results vr kr vw kw) :
    ∃ r0, (r0 ∈ vr ∨ r0 ∈ kr) ∧ r.score = r0.score := by
  rw [fuse_results, List.mem_map] at h
  rcases h with ⟨i, hi, hr⟩
  subst hr
  rw [fuseOne]
  rcases hv : dictLookup vr i with _ | r0
  · have hik : i ∈ kr.map (·.id) := by
      rcases (mem_allIds vr kr i).mp hi with him | him
      · have := dictLookup_isSome vr i him
        rw [hv] at this
        cases this
      · exact him
    rcases Option.isSome_iff_exists.mp (dictLookup_isSome kr i hik) with ⟨r1, hk⟩
    refine ⟨r1, Or.inr (dictLookup_mem kr i r1 hk).1, ?_⟩
    simp [hv, hk]
  · refine ⟨r0, Or.inl (dictLookup_mem vr i r0 hv).1, ?_⟩
    simp [hv]

theorem mem_hybrid_search (emb : Option (List Rat))
    (search : List Rat → Nat → Option Rat → List SearchResult) (l : Nat)
    (vw kw : Rat) (thr : Option Rat) (r : SearchResult)
    (h : r ∈ hybrid_search emb search l vw kw thr) :
    ∃ v r0, r0 ∈ search v l thr ∧ r.score = r0.score := by
  rw [hybrid_search] at h
  have h1 : r ∈ sortDescBy (fun r => r.combined_score.getD 0)
      (fuse_results (vector_search emb search l thr) keyword_search vw kw) :=
    (List.take_sublist l _).mem h
  rw [sortDescBy, List.mem_mergeSort] at h1
  rcases fuse_results_score_mem _ _ vw kw r h1 with ⟨r0, hm | hm, hs⟩
  · rcases mem_vector_search emb search l thr r0 hm with ⟨v, hv⟩
    exact ⟨v, r0, hv, hs⟩
  · cases hm

theorem mem_rerank_results (rs : List SearchResult) (tk : Nat) (r : SearchResult)
    (h : r ∈ rerank_results rs tk) : r ∈ rs := by
  rw [rerank_results] at h
  by_cases hl : rs.length ≤ tk
  · rw [if_pos hl] at h; exact h
  · rw [if_neg hl] at h
    have := (List.take_sublist tk _).mem h
    rw [sortDescBy, List.mem_mergeSort] at this
    exact this

/-- C1: `retrieve_context` always returns a list (the embedding is total; the
Python `try/except` wrappers make every failure path an early `return []`),
and it returns the empty list when the query embedding cannot be obtained,
when the search yields zero results, and — with a threshold set — when every
search result scores below the threshold. -/
theorem retrieve_context_empty_cases :
    (∀ (search : List Rat → Nat → Option Rat → List SearchResult)
        (limit : Nat) (uh rr : Bool) (thr : Option Rat),
      retrieve_context none search limit uh rr thr = []) ∧
    (∀ (emb : Option (List Rat))
        (search : List Rat → Nat → Option Rat → List SearchResult)
        (limit : Nat) (uh rr : Bool) (thr : Option Rat),
      (∀ v l t, search v l t = []) →
      retrieve_context emb search limit uh rr thr = []) ∧
    (∀ (emb : Option (List Rat))
        (search : List Rat → Nat → Option Rat → List SearchResult)
        (limit : Nat) (uh rr : Bool) (t : Rat),
      (∀ v l th r, r ∈ search v l th → r.score.getD 0 < t) →
      retrieve_context emb search limit uh rr (some t) = []) := by
  have post_empty : ∀ (limit : Nat) (rr : Bool) (thr : Option Rat)
      (pool : List SearchResult), pool = [] →
      (let results := if rr && 0 < pool.length then rerank_results pool limit
        else pool.take limit
       match thr with
       | some t => filter_by_threshold results t
       | none => results) = [] := by
    intro limit rr thr pool hp
    subst hp
    cases thr <;> simp [rerank_results, filter_by_threshold]
  have post_filter : ∀ (limit : Nat) (rr : Bool) (t : Rat)
      (pool : List SearchResult), (∀ r ∈ pool, r.score.getD 0 < t) →
      (let results := if rr && 0 < pool.length then rerank_results pool limit
        else pool.take limit
       match (some t : Option Rat) with
       | some t => filter_by_threshold results t
       | none => results) = [] := by
    intro limit rr t pool hp
    show filter_by_threshold
      (if rr && 0 < pool.length then rerank_results pool limit
        else pool.take limit) t = []
    rw [filter_by_threshold, List.filter_eq_nil_iff]
    intro r hr
    have hlt : r.score.getD 0 < t := by
      by_cases hc : rr && 0 < pool.length
      · rw [if_pos hc] at hr
        exact hp r (mem_rerank_results _ limit r hr)
      · rw [if_neg hc] at hr
        exact hp r ((List.take_sublist limit _).mem hr)
    simp only [decide_eq_true_eq]
    exact not_le.mpr hlt
  refine ⟨?_, ?_, ?_⟩
  · intro search limit uh rr thr
    cases uh with
    | true =>
      exact post_empty limit rr thr _
        (hybrid_search_vector_empty none search (limit * 2) _ _ thr rfl)
    | false =>
      exact post_empty limit rr thr _ (vector_search_none search (limit * 2) thr)
  · intro emb search limit uh rr thr h
    have hv : vector_search emb search (limit * 2) thr = [] :=
      vector_search_all_empty emb search (limit * 2) thr (fun v => h v (limit * 2) thr)
    cases uh with
    | true =>
      exact post_empty limit rr thr _
        (hybrid_search_vector_empty emb search (limit * 2) _ _ thr hv)
    | false =>
      exact post_empty limit rr thr _ hv
  · intro emb search limit uh rr t h
    cases uh with
    | true =>
      refine post_filter limit rr t _ ?_
      intro r hr
      rcases mem_hybrid_search emb search (limit * 2) _ _ (some t) r hr with
        ⟨v, r0, hm, hs⟩
      rw [hs]
      exact h v (limit * 2) (some t) r0 hm
    | false =>
      refine post_filter limit rr t _ ?_
      intro r hr
      rcases mem_vector_search emb search (limit * 2) (some t) r hr with ⟨v, hm⟩
      exact h v (limit * 2) (some t) r hm

theorem retrieve_context_empty_cases_witness :
    retrieve_context none (fun _ _ _ => [⟨"a", some 1, none, none, none, []⟩])
      5 true true (some 1) = [] ∧
    retrieve_context (some [1]) (fun _ _ _ => []) 5 true true none = [] ∧
    retrieve_context (some [1])
      (fun _ _ _ => [⟨"a", some 1, none, none, none, []⟩]) 5 true true
      (some 2) = [] := by
  refine ⟨retrieve_context_empty_cases.1 _ 5 true true (some 1),
    retrieve_context_empty_cases.2.1 (some [1]) _ 5 true true none
      (fun _ _ _ => rfl), ?_⟩
  apply retrieve_context_empty_cases.2.2 (some [1]) _ 5 true true 2
  intro v l th r hr
  rcases List.mem_singleton.mp hr with rfl
  decide

theorem chunkBySizeGo_isSome (enc : Encoding) (toks : List Nat) (cs ov : Nat)
    (sec src : Option String) (hov : ov < cs) :
    ∀ (fuel start idx : Nat), toks.length - start < fuel →
      (chunkBySizeGo enc toks cs ov sec src fuel start idx).isSome := by
  intro fuel
  induction fuel with
  | zero => intro start idx h; omega
  | succ fuel ih =>
    intro start idx h
    simp only [chunkBySizeGo]
    by_cases hs : start < toks.length
    · rw [if_pos hs]
      by_cases he : toks.length ≤ min (start + cs) toks.length
      · rw [if_pos he]
        simp
      · rw [if_neg he]
        have hrec := ih (min (start + cs) toks.length - ov) (idx + 1) (by omega)
        rcases Option.isSome_iff_exists.mp hrec with ⟨l, hl⟩
        rw [hl]
        simp
    · rw [if_neg hs]
      simp

theorem chunkBySizeGo_indices (enc : Encoding) (toks : List Nat) (cs ov : Nat)
    (sec src : Option String) :
    ∀ (fuel start idx : Nat) (l : List Chunk),
      chunkBySizeGo enc toks cs ov sec src fuel start idx = some l →
      l.map (·.chunk_index) = List.range' idx l.length := by
  intro fuel
  induction fuel with
  | zero => intro start idx l h; simp [chunkBySizeGo] at h
  | succ fuel ih =>
    intro start idx l h
    simp only [chunkBySizeGo] at h
    by_cases hs : start < toks.length
    · rw [if_pos hs] at h
      by_cases he : toks.length ≤ min (start + cs) toks.length
      · rw [if_pos he] at h
        rcases Option.some.injEq .. ▸ h with rfl
        simp [create_chunk, List.range'_one]
      · rw [if_neg he] at h
        rcases hrec : chunkBySizeGo enc toks cs ov sec src fuel
            (min (start + cs) toks.length - ov) (idx + 1) with _ | rest
        · rw [hrec] at h
          cases h
        · rw [hrec] at h
          rcases Option.some.injEq .. ▸ h with rfl
          have hr := ih _ _ _ hrec
          simp only [List.map_cons, List.length_cons, hr, create_chunk]
          rw [List.range'_succ]
    · rw [if_neg hs] at h
      rcases Option.some.injEq .. ▸ h with rfl
      simp

/-- C10: `chunk_by_size` terminates — within `tokens.length + 1` loop
iterations — whenever `overlap < chunk_size` (which forces
`chunk_size ≥ 1`), because each non-final iteration advances `start` by
`chunk_size - overlap ≥ 1`; and the precondition is necessary: with
`overlap = chunk_size = 1` on a two-token input, and with
`chunk_size = 0` on a one-token input, the loop never finishes no matter
how many iterations it is allowed. -/
theorem chunk_by_size_termination :
    (∀ (enc : Encoding) (t : String) (cs ov : Nat) (sec src : Option String),
      ov < cs → (chunk_by_size enc t cs ov sec src).isSome) ∧
    (∀ fuel idx, chunkBySizeGo charEnc [0, 0] 1 1 none none fuel 0 idx = none) ∧
    (∀ fuel idx, chunkBySizeGo charEnc [0] 0 0 none none fuel 0 idx = none) := by
  refine ⟨?_, ?_, ?_⟩
  · intro enc t cs ov sec src hov
    exact chunkBySizeGo_isSome enc (enc.encode t) cs ov sec src hov
      ((enc.encode t).length + 1) 0 0 (by omega)
  · intro fuel
    induction fuel with
    | zero => intro idx; rfl
    | succ fuel ih =>
      intro idx
      simp only [chunkBySizeGo]
      norm_num
      rw [ih (idx + 1)]
  · intro fuel
    induction fuel with
    | zero => intro idx; rfl
    | succ fuel ih =>
      intro idx
      simp only [chunkBySizeGo]
      norm_num
      rw [ih (idx + 1)]

theorem chunk_by_size_termination_witness :
    (0 : Nat) < 1 ∧
    (chunk_by_size charEnc "ab" 1 0 none none).isSome := by
  exact ⟨by decide, chunk_by_size_termination.1 charEnc "ab" 1 0 none none (by decide)⟩

theorem paraAccum_indices (enc : Encoding) (cs : Nat) (sec src : Option String) :
    ∀ (paras : List String) (idx : Nat) (cur : String),
      (paraAccum enc cs sec src idx cur paras).map (·.chunk_index) =
        List.range' idx (paraAccum enc cs sec src idx cur paras).length := by
  intro paras
  induction paras with
  | nil =>
    intro idx cur
    simp only [paraAccum]
    by_cases hc : cur ≠ "" <;> simp [hc, create_chunk, List.range'_one]
  | cons p rest ih =>
    intro idx cur
    simp only [paraAccum]
    by_cases h1 : cs < count_tokens enc (if cur ≠ "" then cur ++ "\n\n" ++ p else p)
    · rw [if_pos h1]
      by_cases hc : cur ≠ ""
      · rw [if_pos hc]
        simp only [List.map_cons, List.length_cons, create_chunk]
        rw [ih (idx + 1) p, List.range'_succ]
      · rw [if_neg hc]
        exact ih idx p
    · rw [if_neg h1]
      exact ih idx _

theorem sectionChunks_indices (enc : Encoding) (cs : Nat) (src : Option String)
    (idx : Nat) (sec : SectionData) :
    (sectionChunks enc cs src idx sec).map (·.chunk_index) =
      List.range' idx (sectionChunks enc cs src idx sec).length := by
  rw [sectionChunks]
  by_cases h : count_tokens enc sec.content ≤ cs
  · rw [if_pos h]
    simp [create_chunk, List.range'_one]
  · rw [if_neg h]
    exact paraAccum_indices enc cs sec.sectionLabel src _ idx ""

theorem range'_glue : ∀ (m s n : Nat),
    List.range' s m ++ List.range' (s + m) n = List.range' s (m + n) := by
  intro m
  induction m with
  | zero => intro s n; simp
  | succ m ih =>
    intro s n
    rw [List.range'_succ, List.cons_append, show s + (m + 1) = (s + 1) + m by omega,
      ih (s + 1) n, show m + 1 + n = (m + n) + 1 by omega, List.range'_succ]

theorem sectionsLoop_indices (enc : Encoding) (cs : Nat) (src : Option String) :
    ∀ (secs : List SectionData) (idx : Nat),
      (sectionsLoop enc cs src idx secs).map (·.chunk_index) =
        List.range' idx (sectionsLoop enc cs src idx secs).length := by
  intro secs
  induction secs with
  | nil => intro idx; simp [sectionsLoop]
  | cons s rest ih =>
    intro idx
    simp only [sectionsLoop, List.map_append, List.length_append]
    rw [sectionChunks_indices, ih]
    exact range'_glue _ idx _

/-- C4: for every input text (and any terminating size/overlap
configuration), the chunks of `semantic_chunk` carry `chunk_index` values
that are exactly `0..n-1` in list order, whichever of the two paths
(header sections or fixed-size windows) produced them. -/
theorem semantic_chunk_indices (enc : Encoding) (cs ov : Nat) (t : String)
    (src : Option String) (hov : ov < cs) :
    (semantic_chunk enc cs ov t src).isSome ∧
    ((semantic_chunk enc cs ov t src).getD []).map (·.chunk_index) =
      List.range ((semantic_chunk enc cs ov t src).getD []).length := by
  simp only [semantic_chunk]
  by_cases hsec : 1 < (split_by_headers t).length
  · rw [if_pos hsec]
    have hover : (if 1 < (sectionsLoop enc cs src 0 (split_by_headers t)).length ∧ 0 < ov
        then apply_overlap (sectionsLoop enc cs src 0 (split_by_headers t))
        else sectionsLoop enc cs src 0 (split_by_headers t)) =
        sectionsLoop enc cs src 0 (split_by_headers t) := by
      rw [apply_overlap, ite_self]
    rw [hover]
    refine ⟨rfl, ?_⟩
    rw [Option.getD_some, sectionsLoop_indices, List.range_eq_range']
  · rw [if_neg hsec]
    have hs := chunk_by_size_termination.1 enc t cs ov none src hov
    rcases Option.isSome_iff_exists.mp hs with ⟨l, hl⟩
    refine ⟨hs, ?_⟩
    rw [hl, Option.getD_some]
    have : chunkBySizeGo enc (enc.encode t) cs ov none src
        ((enc.encode t).length + 1) 0 0 = some l := hl
    rw [chunkBySizeGo_indices enc (enc.encode t) cs ov none src _ 0 0 l this,
      List.range_eq_range']

theorem semantic_chunk_indices_witness :
    (50 : Nat) < 512 ∧
    ((semantic_chunk charEnc 512 50 "# A\nfoo bar\n\n# B\nbaz qux"
        (some "f.txt")).getD []).map (·.chunk_index) =
      List.range (((semantic_chunk charEnc 512 50 "# A\nfoo bar\n\n# B\nbaz qux"
        (some "f.txt")).getD []).length) := by
  exact ⟨by decide,
    (semantic_chunk_indices charEnc 512 50 "# A\nfoo bar\n\n# B\nbaz qux"
      (some "f.txt") (by decide)).2⟩

theorem chunkBySizeGo_step (enc : Encoding) (toks : List Nat) (cs ov : Nat)
    (sec src : Option String) (fuel start idx : Nat)
    (h2 : start + cs < toks.length) :
    chunkBySizeGo enc toks cs ov sec src (fuel + 1) start idx =
      match chunkBySizeGo enc toks cs ov sec src fuel (start + cs - ov) (idx + 1) with
      | some rest =>
        some (create_chunk enc (enc.decode ((toks.drop start).take cs)) idx sec src :: rest)
      | none => none := by
  simp only [chunkBySizeGo, if_pos (by omega : start < toks.length)]
  have hmin : min (start + cs) toks.length = start + cs := by omega
  rw [hmin, if_neg (by omega), show start + cs - start = cs by omega]

theorem chunkBySizeGo_last (enc : Encoding) (toks : List Nat) (cs ov : Nat)
    (sec src : Option String) (fuel start idx : Nat)
    (h1 : start < toks.length) (h2 : toks.length ≤ start + cs) :
    chunkBySizeGo enc toks cs ov sec src (fuel + 1) start idx =
      some [create_chunk enc (enc.decode ((toks.drop start).take (toks.length - start)))
        idx sec src] := by
  simp only [chunkBySizeGo, if_pos h1]
  have hmin : min (start + cs) toks.length = toks.length := by omega
  rw [hmin, if_pos le_rfl]

/-- C5: when the header split finds no sections, `semantic_chunk` windows the
token stream with `target_size`-token windows advancing by
`target_size - overlap`; for a 2000-token document with `target_size = 500`,
`overlap = 50` this yields exactly 5 chunks whose windows start at 0, 450,
900, 1350 and 1800 (the last shorter), each window overlapping the previous
one by 50 tokens. -/
theorem semantic_chunk_2000_windows (enc : Encoding) (src : Option String)
    (t : String) (hsec : (split_by_headers t).length ≤ 1)
    (htok : (enc.encode t).length = 2000) :
    semantic_chunk enc 500 50 t src = some
      [create_chunk enc (enc.decode ((enc.encode t).take 500)) 0 none src,
       create_chunk enc (enc.decode (((enc.encode t).drop 450).take 500)) 1 none src,
       create_chunk enc (enc.decode (((enc.encode t).drop 900).take 500)) 2 none src,
       create_chunk enc (enc.decode (((enc.encode t).drop 1350).take 500)) 3 none src,
       create_chunk enc (enc.decode (((enc.encode t).drop 1800).take 200)) 4 none src] := by
  have hns : ¬ 1 < (split_by_headers t).length := by omega
  simp only [semantic_chunk, if_neg hns, chunk_by_size]
  rw [htok]
  rw [chunkBySizeGo_step enc _ 500 50 none src 2000 0 0 (by omega)]
  rw [show (2000 : Nat) = 1999 + 1 from rfl,
    chunkBySizeGo_step enc _ 500 50 none src 1999 (0 + 500 - 50) 1 (by omega)]
  rw [show (1999 : Nat) = 1998 + 1 from rfl,
    chunkBySizeGo_step enc _ 500 50 none src 1998 (0 + 500 - 50 + 500 - 50) 2 (by omega)]
  rw [show (1998 : Nat) = 1997 + 1 from rfl,
    chunkBySizeGo_step enc _ 500 50 none src 1997
      (0 + 500 - 50 + 500 - 50 + 500 - 50) 3 (by omega)]
  rw [show (1997 : Nat) = 1996 + 1 from rfl,
    chunkBySizeGo_last enc _ 500 50 none src 1996
      (0 + 500 - 50 + 500 - 50 + 500 - 50 + 500 - 50) 4 (by omega) (by omega)]
  rw [htok]
  norm_num

theorem semantic_chunk_2000_windows_witness :
    semantic_chunk kiloEnc 500 50 "aa" none = some
      [create_chunk kiloEnc (kiloEnc.decode ((kiloEnc.encode "aa").take 500)) 0 none none,
       create_chunk kiloEnc (kiloEnc.decode (((kiloEnc.encode "aa").drop 450).take 500))
         1 none none,
       create_chunk kiloEnc (kiloEnc.decode (((kiloEnc.encode "aa").drop 900).take 500))
         2 none none,
       create_chunk kiloEnc (kiloEnc.decode (((kiloEnc.encode "aa").drop 1350).take 500))
         3 none none,
       create_chunk kiloEnc (kiloEnc.decode (((kiloEnc.encode "aa").drop 1800).take 200))
         4 none none] := by
  apply semantic_chunk_2000_windows kiloEnc none "aa"
  · decide
  · simp [kiloEnc]
    decide

theorem splitHeadersGo_head : ∀ (ls : List String) (cur : Option String)
    (acc : List String), acc ≠ [] →
    ∃ c rest, splitHeadersGo ls cur acc = ⟨cur, c⟩ :: rest := by
  intro ls
  induction ls with
  | nil =>
    intro cur acc hacc
    refine ⟨joinNl acc, [], ?_⟩
    simp [splitHeadersGo, hacc]
  | cons l ls ih =>
    intro cur acc hacc
    simp only [splitHeadersGo]
    rcases hm : headerMatch l with _ | h
    · exact ih cur (acc ++ [l]) (by simp)
    · refine ⟨joinNl acc, splitHeadersGo ls (some h) [l], ?_⟩
      simp [hacc]

/-- C6: the document `"# A\nfoo bar\n\n# B\nbaz qux"`, whenever both its
sections fit in `target_size` tokens, yields exactly two chunks labeled with
sections "A" and "B" in source order; and in general, when the first line of
a text is not a header, the text before the first header lands in a leading
section whose label is `none`. -/
theorem semantic_chunk_sections_scenario :
    (∀ (enc : Encoding) (cs ov : Nat) (src : Option String),
      count_tokens enc "# A\nfoo bar\n" ≤ cs →
      count_tokens enc "# B\nbaz qux" ≤ cs →
      semantic_chunk enc cs ov "# A\nfoo bar\n\n# B\nbaz qux" src =
        some [create_chunk enc "# A\nfoo bar\n" 0 (some "A") src,
              create_chunk enc "# B\nbaz qux" 1 (some "B") src]) ∧
    (∀ (t l0 : String) (ls : List String),
      splitNl t = l0 :: ls → headerMatch l0 = none →
      ∃ c rest, split_by_headers t = ⟨none, c⟩ :: rest) := by
  constructor
  · intro enc cs ov src hA hB
    have hsecs : split_by_headers "# A\nfoo bar\n\n# B\nbaz qux" =
        [⟨some "A", "# A\nfoo bar\n"⟩, ⟨some "B", "# B\nbaz qux"⟩] := by decide
    simp only [semantic_chunk, hsecs]
    rw [if_pos (by norm_num)]
    simp only [sectionsLoop, sectionChunks]
    rw [if_pos hA, if_pos hB]
    simp [apply_overlap, ite_self]
  · intro t l0 ls hsplit hhm
    rw [split_by_headers, hsplit]
    simp only [splitHeadersGo, hhm]
    exact splitHeadersGo_head ls none [l0] (by simp)

theorem semantic_chunk_sections_scenario_witness :
    (count_tokens charEnc "# A\nfoo bar\n" ≤ 512 ∧
      count_tokens charEnc "# B\nbaz qux" ≤ 512) ∧
    semantic_chunk charEnc 512 50 "# A\nfoo bar\n\n# B\nbaz qux" (some "d.md") =
      some [create_chunk charEnc "# A\nfoo bar\n" 0 (some "A") (some "d.md"),
            create_chunk charEnc "# B\nbaz qux" 1 (some "B") (some "d.md")] ∧
    (split_by_headers "intro\n# A\nx").head?.map (·.sectionLabel) = some none := by
  refine ⟨⟨by decide, by decide⟩,
    semantic_chunk_sections_scenario.1 charEnc 512 50 (some "d.md")
      (by decide) (by decide), ?_⟩
  rcases semantic_chunk_sections_scenario.2 "intro\n# A\nx" "intro" ["# A", "x"]
    (by decide) (by decide) with ⟨c, rest, heq⟩
  rw [heq]
  rfl

/-- C9 counterexample: `merge_small_chunks` mutates chunk objects. With two
freshly created one-token chunks (`min_size = 50`, `chunk_size = 512`), after
the call the object that entered as `chunks[0]` no longer has its creation
content — line 243 of chunker.py (`current_chunk.content = combined_content`)
modified it in place. -/
theorem merge_small_chunks_mutates :
    ((merge_small_chunks charEnc 50 512
        [create_chunk charEnc "a" 0 none none,
         create_chunk charEnc "b" 1 none none]).1.getD 0 default).content ≠
      (create_chunk charEnc "a" 0 none none).content := by
  decide

theorem getD_set_same_fields (heap : List Chunk) (cur : Nat) (c' : Chunk) (i : Nat)
    (hidx : c'.chunk_index = (heap.getD cur default).chunk_index)
    (hsec : c'.sectionLabel = (heap.getD cur default).sectionLabel)
    (hsrc : c'.source = (heap.getD cur default).source) :
    (((heap.set cur c').getD i default).chunk_index =
      (heap.getD i default).chunk_index) ∧
    (((heap.set cur c').getD i default).sectionLabel =
      (heap.getD i default).sectionLabel) ∧
    (((heap.set cur c').getD i default).source = (heap.getD i default).source) := by
  rw [List.getD_eq_getElem?_getD (heap.set cur c'), List.getElem?_set]
  rw [List.getD_eq_getElem?_getD heap cur] at hidx hsec hsrc
  rw [List.getD_eq_getElem?_getD heap i]
  by_cases h : cur = i
  · subst h
    by_cases hl : cur < heap.length
    · simp only [if_pos rfl, if_pos hl, Option.getD_some]
      exact ⟨hidx, hsec, hsrc⟩
    · simp only [if_pos rfl, if_neg hl]
      rw [List.getElem?_eq_none (by omega : heap.length ≤ cur)]
      exact ⟨rfl, rfl, rfl⟩
  · rw [if_neg h]
    exact ⟨rfl, rfl, rfl⟩

theorem mergeGo_preserves (enc : Encoding) (m cs : Nat) :
    ∀ (rest : List Nat) (heap : List Chunk) (cur : Nat) (out : List Nat) (i : Nat),
      (((mergeGo enc m cs heap cur rest out).1.getD i default).chunk_index =
        (heap.getD i default).chunk_index) ∧
      (((mergeGo enc m cs heap cur rest out).1.getD i default).sectionLabel =
        (heap.getD i default).sectionLabel) ∧
      (((mergeGo enc m cs heap cur rest out).1.getD i default).source =
        (heap.getD i default).source) := by
  intro rest
  induction rest with
  | nil =>
    intro heap cur out i
    exact ⟨rfl, rfl, rfl⟩
  | cons nxt rest ih =>
    intro heap cur out i
    simp only [mergeGo]
    by_cases hc : tokenCountLt (heap.getD cur default) m = true ∧
        count_tokens enc ((heap.getD cur default).content ++ "\n\n" ++
          (heap.getD nxt default).content) ≤ cs
    · rw [if_pos hc]
      have hset := getD_set_same_fields heap cur
        { heap.getD cur default with
          content := (heap.getD cur default).content ++ "\n\n" ++
            (heap.getD nxt default).content
          token_count := some (count_tokens enc ((heap.getD cur default).content ++
            "\n\n" ++ (heap.getD nxt default).content)) } i rfl rfl rfl
      have hrec := ih (heap.set cur
        { heap.getD cur default with
          content := (heap.getD cur default).content ++ "\n\n" ++
            (heap.getD nxt default).content
          token_count := some (count_tokens enc ((heap.getD cur default).content ++
            "\n\n" ++ (heap.getD nxt default).content)) }) cur out i
      exact ⟨hrec.1.trans hset.1, hrec.2.1.trans hset.2.1, hrec.2.2.trans hset.2.2⟩
    · rw [if_neg hc]
      exact ih heap nxt (out ++ [cur]) i

/-- C9 amended: `merge_small_chunks` does mutate chunk objects — it rewrites
`content` and `token_count` of the chunk it merges into (so Chunks are not
immutable) — but it never modifies the `chunk_index`, `section` or `source`
of any chunk object; every other chunker operation only constructs fresh
chunks from text and leaves existing Chunk objects untouched. -/
theorem merge_small_chunks_preserves_identity (enc : Encoding) (m cs : Nat)
    (chunks : List Chunk) (i : Nat) :
    (((merge_small_chunks enc m cs chunks).1.getD i default).chunk_index =
      (chunks.getD i default).chunk_index) ∧
    (((merge_small_chunks enc m cs chunks).1.getD i default).sectionLabel =
      (chunks.getD i default).sectionLabel) ∧
    (((merge_small_chunks enc m cs chunks).1.getD i default).source =
      (chunks.getD i default).source) := by
  rw [merge_small_chunks]
  by_cases h : chunks.length ≤ 1
  · rw [if_pos h]
    exact ⟨rfl, rfl, rfl⟩
  · rw [if_neg h]
    exact mergeGo_preserves enc m cs ((List.range chunks.length).drop 1) chunks 0 [] i

end Rag
